import Mathlib

/-!
Verification of the SML (Simple Math Library) quaternion/vector core against
its specification.  The definitions below are a shallow embedding of
`vec3.h` and `quat.h`: the scalar type `T` is modelled by `ℝ` (exact real
arithmetic in place of IEEE floating point), and each Lean definition
mirrors one C++ member or free function.  Definitions marked
`Modelled from the spec:` correspond to repository code that is not among
the provided sources (`common.h`, `vec4.h`) and are taken from the
specification's description instead.
-/

set_option maxHeartbeats 1000000

namespace SML

/-- The three named components of `sml::vec3<T>` at `T = ℝ`.  The fourth
padding slot of the C++ union is modelled separately (`Vec3Simd`) where a
claim is about it. -/
structure Vec3 where
  x : ℝ
  y : ℝ
  z : ℝ

/-- Modelled from the spec: `constants::epsilon` from the scalar-helper
module (`common.h`, not among the provided sources); "a small epsilon
threshold" used by `vec3::normalize`, modelled as `1e-7`. -/
noncomputable def epsilon : ℝ := 1e-7

/-- `vec3::operator+=` (element-wise scalar fallback; the f32/f64 SIMD
branches compute the same component-wise sum). -/
def Vec3.add (a b : Vec3) : Vec3 := ⟨a.x + b.x, a.y + b.y, a.z + b.z⟩

/-- Modelled from the spec: unary negation on `vec3` (used by
`quat::conjugate` and `slerp`; the operator itself is defined outside the
provided sources).  "negates vector part": component-wise negation. -/
def Vec3.neg (a : Vec3) : Vec3 := ⟨-a.x, -a.y, -a.z⟩

/-- `vec3::operator*=(T)`: component-wise scaling by a scalar. -/
def Vec3.mulScalar (a : Vec3) (s : ℝ) : Vec3 := ⟨a.x * s, a.y * s, a.z * s⟩

/-- `vec3::operator/=(T)`: component-wise division by a scalar. -/
noncomputable def Vec3.divScalar (a : Vec3) (s : ℝ) : Vec3 :=
  ⟨a.x / s, a.y / s, a.z / s⟩

/-- The free `sml::operator*(vec3<T> left, T right)` exactly as written in
`vec3.h`: its body is `left += right; return left;` (a copy of the
`operator+` body), so it adds the scalar to the components instead of
multiplying.  `vec3` has no scalar `+=` member, so the compound assignment
is read as the broadcast element-wise operation, matching the shape of the
scalar `*=` and `/=` members. -/
def Vec3.mulScalarAsWritten (a : Vec3) (s : ℝ) : Vec3 :=
  ⟨a.x + s, a.y + s, a.z + s⟩

/-- Modelled from the spec: the `T * vec3` scaling used by the Hamilton
product and `slerp` (defined outside the provided sources): standard
component-wise scalar multiplication. -/
def Vec3.smulLeft (s : ℝ) (a : Vec3) : Vec3 := ⟨s * a.x, s * a.y, s * a.z⟩

/-- `vec3::dot` (scalar fallback path): `x*x' + y*y' + z*z'`. -/
def Vec3.dot (a b : Vec3) : ℝ := a.x * b.x + a.y * b.y + a.z * b.z

/-- `vec3::cross`. -/
def Vec3.cross (a b : Vec3) : Vec3 :=
  ⟨a.y * b.z - a.z * b.y, a.z * b.x - a.x * b.z, a.x * b.y - a.y * b.x⟩

/-- `vec3::lengthsquared`. -/
def Vec3.lengthsquared (a : Vec3) : ℝ := a.x * a.x + a.y * a.y + a.z * a.z

/-- `vec3::length`: `sml::sqrt` of the squared length (`sml::sqrt` is the
scalar-helper square root, modelled by `Real.sqrt`). -/
noncomputable def Vec3.length (a : Vec3) : ℝ := Real.sqrt a.lengthsquared

/-- `vec3::normalize`: divides by the length when it exceeds
`constants::epsilon`, otherwise resets the vector to zero. -/
noncomputable def Vec3.normalize (a : Vec3) : Vec3 :=
  if a.length > epsilon then a.divScalar a.length else ⟨0, 0, 0⟩

/-- `sml::quat<T>` at `T = ℝ`.  The union of four named scalars, a
`vec3 xyz` plus scalar `w`, and the backing `vec4 v` is modelled by the
four components; `xyz` is the projection below. -/
structure Quat where
  x : ℝ
  y : ℝ
  z : ℝ
  w : ℝ

/-- The `xyz` union member of `quat`: its vector part. -/
def Quat.xyz (q : Quat) : Vec3 := ⟨q.x, q.y, q.z⟩

/-- `quat::identity()`: `quat(0, 0, 0, 1)`. -/
def Quat.identity : Quat := ⟨0, 0, 0, 1⟩

/-- `quat::zero()`: all four components zero. -/
def Quat.zeroQ : Quat := ⟨0, 0, 0, 0⟩

/-- Modelled from the spec: `vec4::dot` (`vec4.h` is not among the provided
sources; the spec describes `vec4` as the "4-component analog" of `vec3`).
`quat::dot` delegates to it on the backing `vec4`. -/
def Quat.dot (a b : Quat) : ℝ := a.x * b.x + a.y * b.y + a.z * b.z + a.w * b.w

/-- `quat::lengthsquared` via `vec4::lengthsquared` (modelled from the
spec as the 4-component analog of `vec3::lengthsquared`). -/
def Quat.lengthsquared (q : Quat) : ℝ :=
  q.x * q.x + q.y * q.y + q.z * q.z + q.w * q.w

/-- `quat::length` via `vec4::length` (modelled from the spec as the
4-component analog of `vec3::length`). -/
noncomputable def Quat.length (q : Quat) : ℝ := Real.sqrt q.lengthsquared

/-- `quat::normalize`: `scale = 1 / length(); v *= scale;` — note there is
no epsilon guard here, unlike `vec3::normalize`. -/
noncomputable def Quat.normalize (q : Quat) : Quat :=
  ⟨q.x * (1 / q.length), q.y * (1 / q.length),
   q.z * (1 / q.length), q.w * (1 / q.length)⟩

/-- `quat::operator==`: fuzzy rotation similarity, `v.dot(other.v) >
0.999999`, not exact equality. -/
def Quat.fuzzyEq (a b : Quat) : Prop := Quat.dot a b > 0.999999

/-- `quat::operator!=`: `v.dot(other.v) <= 0.999999`. -/
def Quat.fuzzyNe (a b : Quat) : Prop := Quat.dot a b ≤ 0.999999

/-- `quat::conjugate`: negates the vector part, keeps the scalar part. -/
def Quat.conjugate (q : Quat) : Quat := ⟨-q.x, -q.y, -q.z, q.w⟩

/-- `quat::invert`: when `lengthsquared != 0`, sets `i = 1/lengthSq`,
`xyz *= -i`, `w *= i`; otherwise leaves the value unchanged. -/
noncomputable def Quat.invert (q : Quat) : Quat :=
  if q.lengthsquared ≠ 0 then
    ⟨q.x * -(1 / q.lengthsquared), q.y * -(1 / q.lengthsquared),
     q.z * -(1 / q.lengthsquared), q.w * (1 / q.lengthsquared)⟩
  else q

/-- `quat::inverse`: copies the value and inverts the copy. -/
noncomputable def Quat.inverse (q : Quat) : Quat := q.invert

/-- `quat::operator*=` (Hamilton product), with `a` the receiver and `b`
the argument: result vector part `b.w*a.xyz + a.w*b.xyz +
cross(a.xyz, b.xyz)`, scalar part `a.w*b.w - dot(a.xyz, b.xyz)`.  The free
`operator*(quat left, quat right)` is `left *= right`, so it equals
`Quat.mul left right`. -/
def Quat.mul (a b : Quat) : Quat :=
  let r := Vec3.add (Vec3.add (Vec3.smulLeft b.w a.xyz) (Vec3.smulLeft a.w b.xyz))
    (Vec3.cross a.xyz b.xyz)
  ⟨r.x, r.y, r.z, a.w * b.w - Vec3.dot a.xyz b.xyz⟩

/-- The spec's formula for the quaternion inverse, stated in its own words
for comparison with the code: "general inverse = conjugate / lengthsquared"
(component-wise division of the conjugate by the squared length). -/
noncomputable def Quat.inverseSpec (q : Quat) : Quat :=
  ⟨q.conjugate.x / q.lengthsquared, q.conjugate.y / q.lengthsquared,
   q.conjugate.z / q.lengthsquared, q.conjugate.w / q.lengthsquared⟩

/-- `sml::vec3<T>` at an integral scalar type (`T = s32`, modelled by `ℤ`):
the SIMD branches are compiled out and the scalar fallback paths run. -/
structure Vec3i where
  x : ℤ
  y : ℤ
  z : ℤ
deriving DecidableEq

/-- `vec3::min` (static), scalar fallback: component-wise minimum. -/
def Vec3i.vmin (a b : Vec3i) : Vec3i :=
  ⟨min a.x b.x, min a.y b.y, min a.z b.z⟩

/-- `vec3::max` (static), scalar fallback exactly as written in `vec3.h`:
the first component is `sml::max(a.x, b.y)` — pairing `a.x` with `b.y`,
not `b.x`. -/
def Vec3i.vmax (a b : Vec3i) : Vec3i :=
  ⟨max a.x b.y, max a.y b.y, max a.z b.z⟩

/-- `vec3::clamp` (static): `max(a, min(v, b))`. -/
def Vec3i.vclamp (v a b : Vec3i) : Vec3i := Vec3i.vmax a (Vec3i.vmin v b)

/-- One SIMD lane value in the f32/f64 branches of `vec3`: `some r` is the
finite value `r`, `none` models an IEEE non-finite result (NaN or ±inf),
which division of zero by zero produces. -/
def Lane : Type := Option ℝ

/-- Lane-wise IEEE division: dividing by zero yields a non-finite value
(`0/0` is NaN, `x/0` is ±inf), modelled as `none`. -/
noncomputable def laneDiv : Option ℝ → Option ℝ → Option ℝ
  | some a, some b => if b = 0 then none else some (a / b)
  | _, _ => none

/-- Lane-wise addition (non-finite operands propagate). -/
def laneAdd : Option ℝ → Option ℝ → Option ℝ
  | some a, some b => some (a + b)
  | _, _ => none

/-- Lane-wise multiplication (non-finite operands propagate). -/
def laneMul : Option ℝ → Option ℝ → Option ℝ
  | some a, some b => some (a * b)
  | _, _ => none

/-- The four SIMD lanes of a `vec3<f32>` value: lanes 0..2 hold x, y, z and
lane 3 is the padding slot of the union's `T v[4]`. -/
structure Vec3Simd where
  l0 : Option ℝ
  l1 : Option ℝ
  l2 : Option ℝ
  l3 : Option ℝ

/-- The `vec3(T x, T y, T z)` constructor: sets the components and stores
`v[3] = 0`. -/
def Vec3Simd.make (x y z : ℝ) : Vec3Simd := ⟨some x, some y, some z, some 0⟩

/-- `vec3::operator+=` f32 branch: `_mm_add_ps` adds all four lanes. -/
def Vec3Simd.addv (a b : Vec3Simd) : Vec3Simd :=
  ⟨laneAdd a.l0 b.l0, laneAdd a.l1 b.l1, laneAdd a.l2 b.l2, laneAdd a.l3 b.l3⟩

/-- `vec3::operator*=` f32 branch: `_mm_mul_ps` multiplies all four lanes. -/
def Vec3Simd.mulv (a b : Vec3Simd) : Vec3Simd :=
  ⟨laneMul a.l0 b.l0, laneMul a.l1 b.l1, laneMul a.l2 b.l2, laneMul a.l3 b.l3⟩

/-- `vec3::operator/=(const vec3&)` f32 branch: `_mm_div_ps` divides all
four lanes, the padding lane included. -/
noncomputable def Vec3Simd.divv (a b : Vec3Simd) : Vec3Simd :=
  ⟨laneDiv a.l0 b.l0, laneDiv a.l1 b.l1, laneDiv a.l2 b.l2, laneDiv a.l3 b.l3⟩

/-- Claim C7: `vec3::min` and `vec3::max` are pairwise component-wise; in
fact the scalar-fallback branch of `max` pairs `a.x` with `b.y`.  Evaluating
the code as written at `a = (0,0,0)`, `b = (1,2,3)` yields `(2,2,3)`, not
the component-wise maximum `(1,2,3)`. -/
theorem max_fallback_mismatch :
    Vec3i.vmax ⟨0, 0, 0⟩ ⟨1, 2, 3⟩ = ⟨2, 2, 3⟩ ∧
      Vec3i.vmax ⟨0, 0, 0⟩ ⟨1, 2, 3⟩ ≠ ⟨1, 2, 3⟩ := by
  decide

/-- Claim C8: the padding slot is claimed to stay zero across all public
vec3 operations, but `operator/=(const vec3&)` divides all four SIMD lanes,
so the padding lane becomes `0/0` — an IEEE non-finite (NaN) value, not
zero.  Evaluating at `(1,2,3) /= (4,5,6)`. -/
theorem div_vec_padding_not_zero :
    (Vec3Simd.divv (Vec3Simd.make 1 2 3) (Vec3Simd.make 4 5 6)).l3 = none ∧
      (Vec3Simd.divv (Vec3Simd.make 1 2 3) (Vec3Simd.make 4 5 6)).l3 ≠
        some (0 : ℝ) := by
  constructor
  · simp [Vec3Simd.divv, Vec3Simd.make, laneDiv]
  · simp [Vec3Simd.divv, Vec3Simd.make, laneDiv]

/-- Claim C9: `quat::invert` computes the general inverse
`conjugate / lengthsquared` when the squared length is nonzero, and is a
silent no-op (the value is unchanged) when the squared length is zero. -/
theorem invert_eq_conjugate_div_lengthsquared (q : Quat) :
    q.invert = if q.lengthsquared = 0 then q else q.inverseSpec := by
  by_cases h : q.lengthsquared = 0
  · simp [Quat.invert, h]
  · simp only [Quat.invert, Quat.inverseSpec, Quat.conjugate, h, if_false,
      ne_eq, not_false_iff, if_true, Quat.mk.injEq]
    refine ⟨by ring, by ring, by ring, by ring⟩

/-- Claim C10: quaternion equality is not reflexive for non-unit
quaternions — `q == q` holds exactly when the squared length exceeds
`0.999999`; for the zero quaternion (and for a quaternion of length `0.5`)
`q == q` is false while `q != q` is true. -/
theorem fuzzy_eq_not_reflexive :
    (∀ q : Quat, q.fuzzyEq q ↔ q.lengthsquared > 0.999999) ∧
      ¬ Quat.fuzzyEq Quat.zeroQ Quat.zeroQ ∧
      Quat.fuzzyNe Quat.zeroQ Quat.zeroQ ∧
      ¬ Quat.fuzzyEq ⟨0.5, 0, 0, 0⟩ ⟨0.5, 0, 0, 0⟩ := by
  refine ⟨fun q => Iff.rfl, ?_, ?_, ?_⟩
  · norm_num [Quat.fuzzyEq, Quat.dot, Quat.zeroQ]
  · norm_num [Quat.fuzzyNe, Quat.dot, Quat.zeroQ]
  · norm_num [Quat.fuzzyEq, Quat.dot]

/-- Claim C3: for every quaternion with nonzero length, the Hamilton
product `q.inverse() * q` equals the identity quaternion `(0,0,0,1)`
exactly (hence within any tolerance). -/
theorem inverse_mul_eq_identity (q : Quat) (h : q.length ≠ 0) :
    Quat.mul q.inverse q = Quat.identity := by
  have hS : q.lengthsquared ≠ 0 := by
    intro h0
    exact h (by simp [Quat.length, h0, Real.sqrt_zero])
  have hinv : q.inverse =
      ⟨q.x * -(1 / q.lengthsquared), q.y * -(1 / q.lengthsquared),
       q.z * -(1 / q.lengthsquared), q.w * (1 / q.lengthsquared)⟩ := by
    rw [Quat.inverse, Quat.invert, if_pos hS]
  have hS' : q.x * q.x + q.y * q.y + q.z * q.z + q.w * q.w ≠ 0 := hS
  rw [hinv]
  simp only [Quat.mul, Quat.xyz, Quat.identity, Vec3.add, Vec3.smulLeft,
    Vec3.cross, Vec3.dot, Quat.lengthsquared, Quat.mk.injEq]
  refine ⟨by field_simp; ring, by field_simp; ring, by field_simp; ring, ?_⟩
  field_simp
  ring

/-- Witness for C3 at the concrete quaternion `(1,2,3,4)`. -/
theorem inverse_mul_eq_identity_witness :
    Quat.length ⟨1, 2, 3, 4⟩ ≠ 0 ∧
      Quat.mul (Quat.inverse ⟨1, 2, 3, 4⟩) ⟨1, 2, 3, 4⟩ = Quat.identity := by
  have h : Quat.length ⟨1, 2, 3, 4⟩ ≠ 0 := by
    norm_num [Quat.length, Quat.lengthsquared, Real.sqrt_ne_zero']
  exact ⟨h, inverse_mul_eq_identity _ h⟩

/-- Claim C6 as amended: `quat::normalize` has no epsilon guard — it
unconditionally scales by the reciprocal length, so every quaternion of
nonzero length (however small) is scaled to unit length. -/
theorem normalize_unit_length_of_length_ne_zero (q : Quat) (h : q.length ≠ 0) :
    (q.normalize).length = 1 := by
  have hS0 : 0 ≤ q.lengthsquared := by
    simp only [Quat.lengthsquared]
    nlinarith [sq_nonneg q.x, sq_nonneg q.y, sq_nonneg q.z, sq_nonneg q.w]
  have hSpos : 0 < q.lengthsquared := by
    rcases lt_or_eq_of_le hS0 with h1 | h1
    · exact h1
    · exact absurd (by simp [Quat.length, ← h1, Real.sqrt_zero]) h
  have hsq : Real.sqrt q.lengthsquared * Real.sqrt q.lengthsquared
      = q.lengthsquared := Real.mul_self_sqrt hS0
  have hs0 : Real.sqrt q.lengthsquared ≠ 0 := by
    rw [Real.sqrt_ne_zero' ]
    exact hSpos
  have h1 : (q.normalize).lengthsquared = 1 := by
    simp only [Quat.lengthsquared, Quat.length] at hsq hs0
    simp only [Quat.normalize, Quat.lengthsquared, Quat.length]
    field_simp
    nlinarith [hsq]
  simp [Quat.length, h1]

/-- Witness for the amended C6 at the concrete quaternion `(0,3,0,4)` of
length `5`. -/
theorem normalize_unit_length_witness :
    Quat.length ⟨0, 3, 0, 4⟩ ≠ 0 ∧
      Quat.length (Quat.normalize ⟨0, 3, 0, 4⟩) = 1 := by
  have h : Quat.length ⟨0, 3, 0, 4⟩ ≠ 0 := by
    norm_num [Quat.length, Quat.lengthsquared, Real.sqrt_ne_zero']
  exact ⟨h, normalize_unit_length_of_length_ne_zero _ h⟩

/-- Counterexample to C6 as stated: the quaternion `(1e-8, 0, 0, 0)` has
length `1e-8`, at or below the epsilon threshold, yet `quat::normalize`
does not reset it to zero — it scales it to `(1, 0, 0, 0)` (in IEEE
floating point a zero-length quaternion would produce NaN, never zero). -/
theorem normalize_small_quat_not_zeroed :
    0 < Quat.length ⟨1e-8, 0, 0, 0⟩ ∧
      Quat.length ⟨1e-8, 0, 0, 0⟩ ≤ epsilon ∧
      Quat.normalize ⟨1e-8, 0, 0, 0⟩ ≠ Quat.zeroQ := by
  have hlen : Quat.length ⟨1e-8, 0, 0, 0⟩ = 1e-8 := by
    rw [Quat.length]
    show Real.sqrt (1e-8 * 1e-8 + 0 * 0 + 0 * 0 + 0 * 0) = 1e-8
    rw [show (1e-8 * 1e-8 + 0 * 0 + 0 * 0 + 0 * 0 : ℝ) = (1e-8) ^ 2 by norm_num,
      Real.sqrt_sq (by norm_num)]
  refine ⟨by rw [hlen]; norm_num, by rw [hlen]; norm_num [epsilon], ?_⟩
  intro hco
  have hx := congrArg Quat.x hco
  simp only [Quat.normalize, hlen, Quat.zeroQ] at hx
  norm_num at hx

/-- `quat::axisangle`: returns identity for a zero axis; otherwise halves
the angle, normalizes the axis, sets `q.xyz = axis * sin(angle)` — which
uses the `operator*(vec3, T)` whose body is `left += right` — sets
`q.w = cos(angle)`, and returns `q.normalized()`.  (The source calls
`axis.normalize()` on the parameter and then reads the normalized value.) -/
noncomputable def Quat.axisangle (axis : Vec3) (angle : ℝ) : Quat :=
  if axis.lengthsquared = 0 then Quat.identity
  else
    let half := angle * 0.5
    let axisN := axis.normalize
    let r := Vec3.mulScalarAsWritten axisN (Real.sin half)
    Quat.normalize ⟨r.x, r.y, r.z, Real.cos half⟩

/-- The free `sml::operator*(quat<T> left, vec3<T> right)` rotation
operator, with the twelve intermediate products exactly as in the source. -/
def Quat.rotate (left : Quat) (right : Vec3) : Vec3 :=
  let num := left.x * 2
  let num2 := left.y * 2
  let num3 := left.z * 2
  let num4 := left.x * num
  let num5 := left.y * num2
  let num6 := left.z * num3
  let num7 := left.x * num2
  let num8 := left.x * num3
  let num9 := left.y * num3
  let num10 := left.w * num
  let num11 := left.w * num2
  let num12 := left.w * num3
  ⟨(1 - (num5 + num6)) * right.x + (num7 - num12) * right.y +
      (num8 + num11) * right.z,
   (num7 + num12) * right.x + (1 - (num4 + num6)) * right.y +
      (num9 - num10) * right.z,
   (num8 - num11) * right.x + (num9 + num10) * right.y +
      (1 - (num4 + num5)) * right.z⟩

/-- Claim C4: `axisangle(axis, 0)` is claimed to fuzzy-equal `identity()`
for any nonzero axis, but `operator*(vec3, T)` adds the scalar instead of
multiplying, so for axis `(1,0,0)` and angle `0` the code produces
`normalize(1, 0, 0, 1)`, whose dot with the identity is `1/√2 ≈ 0.707`,
failing the `> 0.999999` similarity test. -/
theorem axisangle_zero_angle_not_identity :
    ¬ Quat.fuzzyEq (Quat.axisangle ⟨1, 0, 0⟩ 0) Quat.identity := by
  have hl : Vec3.length ⟨1, 0, 0⟩ = 1 := by
    simp [Vec3.length, Vec3.lengthsquared]
  have hnorm : Vec3.normalize ⟨1, 0, 0⟩ = ⟨1, 0, 0⟩ := by
    rw [Vec3.normalize, if_pos (by rw [hl]; norm_num [epsilon])]
    rw [hl]
    norm_num [Vec3.divScalar]
  have hax : Quat.axisangle ⟨1, 0, 0⟩ 0 = Quat.normalize ⟨1, 0, 0, 1⟩ := by
    rw [Quat.axisangle, if_neg (by norm_num [Vec3.lengthsquared])]
    rw [hnorm]
    norm_num [Vec3.mulScalarAsWritten, Real.sin_zero, Real.cos_zero]
  have hdot : Quat.dot (Quat.normalize ⟨1, 0, 0, 1⟩) Quat.identity
      = 1 / Real.sqrt 2 := by
    simp only [Quat.normalize, Quat.length, Quat.lengthsquared, Quat.dot,
      Quat.identity]
    norm_num
  rw [Quat.fuzzyEq, hax, hdot]
  have hpos : (0 : ℝ) < Real.sqrt 2 := by positivity
  have h2 : Real.sqrt 2 ≥ 1.4 := by
    nlinarith [Real.sq_sqrt (by norm_num : (0 : ℝ) ≤ 2), Real.sqrt_nonneg 2]
  rw [gt_iff_lt, not_lt, div_le_iff₀ hpos]
  nlinarith [h2]

/-- Claim C5: rotating `(0,0,1)` by `axisangle((0,1,0), 90°)` is claimed to
give approximately `(1,0,0)`, but through the broken scalar multiply the
axis-angle quaternion is `normalize(√2/2, 1+√2/2, √2/2, √2/2)` and the
rotated vector's y component is `√2/(3+√2) ≈ 0.32`, far from `0`. -/
theorem axisangle_rotate_y_component :
    (Quat.rotate (Quat.axisangle ⟨0, 1, 0⟩ (Real.pi / 2)) ⟨0, 0, 1⟩).y
      = Real.sqrt 2 / (3 + Real.sqrt 2) ∧
    0.3 < (Quat.rotate (Quat.axisangle ⟨0, 1, 0⟩ (Real.pi / 2)) ⟨0, 0, 1⟩).y := by
  have hA : Real.sqrt 2 * Real.sqrt 2 = 2 :=
    Real.mul_self_sqrt (by norm_num)
  have hA0 : (0 : ℝ) ≤ Real.sqrt 2 := Real.sqrt_nonneg 2
  have hl : Vec3.length ⟨0, 1, 0⟩ = 1 := by
    simp [Vec3.length, Vec3.lengthsquared]
  have hnorm : Vec3.normalize ⟨0, 1, 0⟩ = ⟨0, 1, 0⟩ := by
    rw [Vec3.normalize, if_pos (by rw [hl]; norm_num [epsilon])]
    rw [hl]
    norm_num [Vec3.divScalar]
  have hhalf : Real.pi / 2 * 0.5 = Real.pi / 4 := by ring
  have hax : Quat.axisangle ⟨0, 1, 0⟩ (Real.pi / 2)
      = Quat.normalize ⟨Real.sqrt 2 / 2, 1 + Real.sqrt 2 / 2,
          Real.sqrt 2 / 2, Real.sqrt 2 / 2⟩ := by
    rw [Quat.axisangle, if_neg (by norm_num [Vec3.lengthsquared])]
    rw [hnorm, hhalf]
    norm_num [Vec3.mulScalarAsWritten, Real.sin_pi_div_four,
      Real.cos_pi_div_four]
  have hS : Quat.lengthsquared ⟨Real.sqrt 2 / 2, 1 + Real.sqrt 2 / 2,
      Real.sqrt 2 / 2, Real.sqrt 2 / 2⟩ = 3 + Real.sqrt 2 := by
    simp only [Quat.lengthsquared]
    linear_combination hA
  have hB : Real.sqrt (3 + Real.sqrt 2) * Real.sqrt (3 + Real.sqrt 2)
      = 3 + Real.sqrt 2 := Real.mul_self_sqrt (by positivity)
  have hBpos : (0 : ℝ) < Real.sqrt (3 + Real.sqrt 2) :=
    Real.sqrt_pos.mpr (by positivity)
  have hy : (Quat.rotate (Quat.axisangle ⟨0, 1, 0⟩ (Real.pi / 2)) ⟨0, 0, 1⟩).y
      = Real.sqrt 2 / (3 + Real.sqrt 2) := by
    rw [hax]
    simp only [Quat.normalize, Quat.length, hS, Quat.rotate]
    rw [eq_div_iff (by positivity)]
    field_simp
    have hB2 : Real.sqrt (3 + Real.sqrt 2) ^ 2 = 3 + Real.sqrt 2 := by
      rw [sq]
      exact hB
    linear_combination (-4 * Real.sqrt 2) * hB2
  refine ⟨hy, ?_⟩
  rw [hy, lt_div_iff₀ (by positivity)]
  have h14 : Real.sqrt 2 ≥ 1.4 := by nlinarith [hA, hA0]
  nlinarith [h14]

/-- `quat::slerp` exactly as written: zero-length special cases, the
cosine-of-half-angle clamp check, then the shorter-arc branch — which in
the source negates `b.xyz` and `a.w` (parts of both operands) rather than
one whole operand — then trigonometric or linear blend weights, blending
with the mutated values, and a final renormalization (identity fallback).
`sml::acos`/`sml::sin` are the scalar helpers, modelled by
`Real.arccos`/`Real.sin`. -/
noncomputable def Quat.slerp (a b : Quat) (blend : ℝ) : Quat :=
  if a.lengthsquared = 0 then
    if b.lengthsquared = 0 then Quat.identity else b
  else if b.lengthsquared = 0 then a
  else
    let ch := a.w * b.w + Vec3.dot a.xyz b.xyz
    if ch ≥ 1 ∨ ch ≤ -1 then a
    else
      let bxyz := if ch < 0 then Vec3.neg b.xyz else b.xyz
      let aw := if ch < 0 then -a.w else a.w
      let ch2 := if ch < 0 then -ch else ch
      let blendA := if ch2 < 0.99 then
          Real.sin (Real.arccos ch2 * (1 - blend)) *
            (1 / Real.sin (Real.arccos ch2))
        else 1 - blend
      let blendB := if ch2 < 0.99 then
          Real.sin (Real.arccos ch2 * blend) *
            (1 / Real.sin (Real.arccos ch2))
        else blend
      let rv := Vec3.add (Vec3.smulLeft blendA a.xyz) (Vec3.smulLeft blendB bxyz)
      let res : Quat := ⟨rv.x, rv.y, rv.z, blendA * aw + blendB * b.w⟩
      if res.lengthsquared > 0 then res.normalize else Quat.identity

/-- Claim C2: `slerp(a,b,0)` is claimed to approximate `a` also when the
dot product is negative, but the shorter-arc branch negates `a`'s scalar
part (and `b`'s vector part), so for the unit quaternions
`a = (0.6, 0, 0, 0.8)` and `b = (-0.8, 0, 0, -0.6)` (dot `-0.96`) the code
returns `(0.6, 0, 0, -0.8)`, whose dot with `a` is `-0.28` — it fails the
fuzzy similarity test (and is not even a sign-flip of `a`). -/
theorem slerp_flip_t_zero_not_a :
    Quat.slerp ⟨0.6, 0, 0, 0.8⟩ ⟨-0.8, 0, 0, -0.6⟩ 0 = ⟨0.6, 0, 0, -0.8⟩ ∧
      Quat.fuzzyNe (Quat.slerp ⟨0.6, 0, 0, 0.8⟩ ⟨-0.8, 0, 0, -0.6⟩ 0)
        ⟨0.6, 0, 0, 0.8⟩ := by
  have hsin : Real.sin (Real.arccos ((24 : ℝ) / 25)) = 7 / 25 := by
    rw [Real.sin_arccos]
    rw [show (1 : ℝ) - (24 / 25) ^ 2 = (7 / 25) ^ 2 by norm_num]
    exact Real.sqrt_sq (by norm_num)
  have heval : Quat.slerp ⟨0.6, 0, 0, 0.8⟩ ⟨-0.8, 0, 0, -0.6⟩ 0
      = ⟨0.6, 0, 0, -0.8⟩ := by
    norm_num [Quat.slerp, Quat.xyz, Vec3.dot, Vec3.neg, Vec3.add,
      Vec3.smulLeft, Quat.lengthsquared, Quat.normalize, Quat.length,
      hsin, Real.sin_zero, Real.sqrt_one]
  refine ⟨heval, ?_⟩
  rw [heval]
  norm_num [Quat.fuzzyNe, Quat.dot]

/-- Modelled from the spec: `constants::deg2rad` from the scalar-helper
module (standard degree-to-radian factor). -/
noncomputable def deg2rad : ℝ := Real.pi / 180

/-- Modelled from the spec: `constants::rad2deg` from the scalar-helper
module (standard radian-to-degree factor). -/
noncomputable def rad2deg : ℝ := 180 / Real.pi

/-- Modelled from the spec: `sml::atan2`, the standard two-argument
arctangent with range `(-pi, pi]`, modelled by the complex argument of
`x + y*I`. -/
noncomputable def atan2 (y x : ℝ) : ℝ := Complex.arg ⟨x, y⟩

/-- Modelled from the spec: `sml::normalizeAngle` wraps a degree angle
into the canonical range ("wrap to `(-180°, 180°]` or equivalent"). -/
noncomputable def normalizeAngle (x : ℝ) : ℝ :=
  x - 360 * ((⌈x / 360 - 1 / 2⌉ : ℤ) : ℝ)

/-- `quat::normalizeAngles`: wraps each component with `normalizeAngle`. -/
noncomputable def normalizeAngles (a : Vec3) : Vec3 :=
  ⟨normalizeAngle a.x, normalizeAngle a.y, normalizeAngle a.z⟩

/-- `normalizeAngle` leaves an angle already in the canonical range
unchanged. -/
theorem normalizeAngle_eq_self (x : ℝ) (h1 : -180 < x) (h2 : x ≤ 180) :
    normalizeAngle x = x := by
  have hc : (⌈x / 360 - 1 / 2⌉ : ℤ) = 0 := by
    rw [Int.ceil_eq_zero_iff, Set.mem_Ioc]
    constructor
    · linarith
    · linarith
  rw [normalizeAngle, hc]
  norm_num

/-- `quat::euler(vec3 rotation)` (static): degrees to radians via
`rotation *= deg2rad`, then the half-angle sine/cosine products exactly as
assigned in the source (`yaw = r.x`, `pitch = r.y`, `roll = r.z`). -/
noncomputable def Quat.euler (rot : Vec3) : Quat :=
  let r := Vec3.mulScalar rot deg2rad
  let sr := Real.sin (r.z * 0.5)
  let cr := Real.cos (r.z * 0.5)
  let sp := Real.sin (r.y * 0.5)
  let cp := Real.cos (r.y * 0.5)
  let sy := Real.sin (r.x * 0.5)
  let cy := Real.cos (r.x * 0.5)
  ⟨cy * cp * cr + sy * sp * sr,
   cy * cp * sr - sy * sp * cr,
   cy * sp * cr + sy * cp * sr,
   sy * cp * cr - cy * sp * sr⟩

/-- `quat::eulerAngles()`: the gimbal-lock branches on the singularity
test `x*w - y*z` against `±0.4995 * unit`, otherwise atan2/asin formulas
on the permuted quaternion `quat q(w, z, x, y)`.  Two features are kept
exactly as written in the source: the second argument of each `atan2` is
`static_cast<T>(1 - 2) * (...)`, i.e. `(-1) * (...)` rather than
`1 - 2*(...)`, and the final `res * constants::rad2deg` uses
`operator*(vec3, T)`, whose body is `left += right`. -/
noncomputable def Quat.eulerAngles (q : Quat) : Vec3 :=
  let unit := q.x * q.x + q.y * q.y + q.z * q.z + q.w * q.w
  let st := q.x * q.w - q.y * q.z
  if st > 0.4995 * unit then
    normalizeAngles (Vec3.mulScalarAsWritten
      ⟨Real.pi / 2, 2 * atan2 q.y q.x, 0⟩ rad2deg)
  else if st < -0.4995 * unit then
    normalizeAngles (Vec3.mulScalarAsWritten
      ⟨-Real.pi / 2, -2 * atan2 q.y q.x, 0⟩ rad2deg)
  else
    let p : Quat := ⟨q.w, q.z, q.x, q.y⟩
    normalizeAngles (Vec3.mulScalarAsWritten
      ⟨Real.arcsin (2 * (p.x * p.z - p.w * p.y)),
       atan2 (2 * p.x * p.w + 2 * p.y * p.z) ((1 - 2) * (p.z * p.z + p.w * p.w)),
       atan2 (2 * p.x * p.y + 2 * p.z * p.w) ((1 - 2) * (p.y * p.y + p.z * p.z))⟩
      rad2deg)

/-- Numeric lower bound on the radian-to-degree factor. -/
theorem rad2deg_gt : (57.29 : ℝ) < rad2deg := by
  have hpipos := Real.pi_pos
  rw [rad2deg, lt_div_iff₀ hpipos]
  nlinarith [Real.pi_lt_d6]

/-- Numeric upper bound on the radian-to-degree factor. -/
theorem rad2deg_lt : rad2deg < (57.3 : ℝ) := by
  have hpipos := Real.pi_pos
  rw [rad2deg, div_lt_iff₀ hpipos]
  nlinarith [Real.pi_gt_d6]

/-- Because the degree conversion at the end of `eulerAngles` adds the
factor `rad2deg ≈ 57.3°` instead of multiplying by it, the x (pitch)
component of the result always lies in the band
`[rad2deg - pi/2, rad2deg + pi/2] ≈ [55.7°, 58.9°]`, in every branch. -/
theorem eulerAngles_x_mem_band (q : Quat) :
    rad2deg - Real.pi / 2 ≤ (Quat.eulerAngles q).x ∧
      (Quat.eulerAngles q).x ≤ rad2deg + Real.pi / 2 := by
  have hp2 : Real.pi / 2 < 1.5708 := by nlinarith [Real.pi_lt_d6]
  have hp1 : (1.5707 : ℝ) < Real.pi / 2 := by nlinarith [Real.pi_gt_d6]
  have hr1 := rad2deg_gt
  have hr2 := rad2deg_lt
  have key : ∀ t : ℝ, -(Real.pi / 2) ≤ t → t ≤ Real.pi / 2 →
      normalizeAngle (t + rad2deg) = t + rad2deg := by
    intro t ht1 ht2
    apply normalizeAngle_eq_self
    · linarith
    · linarith
  simp only [Quat.eulerAngles]
  split_ifs with h1 h2
  · simp only [normalizeAngles, Vec3.mulScalarAsWritten]
    rw [key _ (by linarith) (by linarith)]
    constructor
    · linarith
    · linarith
  · simp only [normalizeAngles, Vec3.mulScalarAsWritten]
    rw [show -Real.pi / 2 = -(Real.pi / 2) by ring,
      key _ (by linarith) (by linarith)]
    constructor
    · linarith
    · linarith
  · simp only [normalizeAngles, Vec3.mulScalarAsWritten]
    have ha1 := Real.neg_pi_div_two_le_arcsin (2 * (q.w * q.x - q.y * q.z))
    have ha2 := Real.arcsin_le_pi_div_two (2 * (q.w * q.x - q.y * q.z))
    rw [key _ ha1 ha2]
    constructor
    · linarith
    · linarith

/-- Claim C1: `eulerAngles` after `euler` is claimed to round-trip the
non-singular angle triple `(30, 45, 10)` degrees, but — through the
`(1-2)*(...)` atan2 arguments and the additive `operator*(vec3, T)` in the
degree conversion — the x component of the extracted angles always lies in
`[55.7°, 58.9°]`, so it cannot equal `30`. -/
theorem euler_roundtrip_x_ne_thirty :
    (Quat.eulerAngles (Quat.euler ⟨30, 45, 10⟩)).x ≠ 30 := by
  have hb := eulerAngles_x_mem_band (Quat.euler ⟨30, 45, 10⟩)
  have hp2 : Real.pi / 2 < 1.5708 := by nlinarith [Real.pi_lt_d6]
  have hr1 := rad2deg_gt
  intro hcon
  rw [hcon] at hb
  linarith [hb.1]

end SML
